import Mathlib

/-!
Shallow embedding of src/pipulate.py: the model selector (parse_version,
get_best_llama_model, get_available_models, get_best_model), the chat
responder (chat_with_ollama, generate_and_stream_ai_response, quick_message,
limit_llm_response), the connection registry (on_conn, on_disconn) and the
conversation list mutated by the WebSocket handler.

Conventions of the embedding:
- Python strings are Lean String (char lists); the regex classes \d and \D
  are modelled over the ASCII digit test, and str.split() whitespace over
  Char.isWhitespace, matching the ASCII inputs the program handles.
- A Python comparison that can raise TypeError (int vs str in a version key)
  is modelled with Option Ordering, where none stands for the raised error;
  functions that can propagate such an error return Except Unit.
- The network is a parameter: the fetch outcome feeds get_available_models,
  and a record of the HTTP reply feeds chat_with_ollama.
- The replay loops are modelled as event-trace producers; the users registry
  read at each loop iteration is a parameter Nat -> List String giving the
  registered recipient keys at the time of that send.
-/

/-- ASCII digit test: the model of the regex class \d in pipulate.py. -/
def isDig (c : Char) : Bool := c.isDigit

/-- Whitespace test: the model of the default str.split() separator class. -/
def isWs (c : Char) : Bool := c.isWhitespace

/-- Decimal value of a digit run: the model of int(x) on a \d+ token. -/
def strToNat (cs : List Char) : Nat :=
  cs.foldl (fun a c => a * 10 + (c.toNat - 48)) 0

/-- One token of a parsed version string: an integer run or a string run,
as produced by parse_version in pipulate.py. -/
inductive VTok where
  | int : Nat → VTok
  | str : List Char → VTok
deriving DecidableEq, Repr

/-- Group a char list into maximal runs of chars agreeing on p, tagged with
the value of p on the run: the model of re.findall over the alternation of
\d+ and \D+ (with p := isDig), and also of the word/space run structure
used by str.split() (with p := isWs). -/
def runsBy (p : Char → Bool) : List Char → List (Bool × List Char)
  | [] => []
  | c :: cs =>
    match runsBy p cs with
    | (b, run) :: rest =>
      if p c = b then (b, c :: run) :: rest
      else (p c, [c]) :: (b, run) :: rest
    | [] => [(p c, [c])]

/-- Convert one run into a version token: digit runs become integers
(int(x) when x.isdigit()), other runs stay strings. -/
def tokOfRun (r : Bool × List Char) : VTok :=
  if r.1 then VTok.int (strToNat r.2) else VTok.str r.2

/-- Embedding of parse_version: split the version string into alternating
digit runs and non-digit runs, mapping digit runs to integers. -/
def parse_version (v : String) : List VTok :=
  (runsBy isDig v.data).map tokOfRun

/-- Total comparison of naturals, the model of int ordering in Python. -/
def cmpN (a b : Nat) : Ordering :=
  if a < b then Ordering.lt else if a = b then Ordering.eq else Ordering.gt

/-- Comparison of chars by code point, the model of Python str ordering
restricted to one char. -/
def cmpChar (a b : Char) : Ordering := cmpN a.toNat b.toNat

/-- Lexicographic comparison of char lists: the model of Python str
ordering (code point lexicographic, shorter prefix first). -/
def cmpCharList : List Char → List Char → Ordering
  | [], [] => Ordering.eq
  | [], _ :: _ => Ordering.lt
  | _ :: _, [] => Ordering.gt
  | a :: la, b :: lb =>
    match cmpChar a b with
    | Ordering.eq => cmpCharList la lb
    | o => o

/-- Comparison of two version tokens. In Python, an int and a str are never
equal but ordering them raises TypeError; none models that error. -/
def cmpTok : VTok → VTok → Option Ordering
  | VTok.int a, VTok.int b => some (cmpN a b)
  | VTok.str a, VTok.str b => some (cmpCharList a b)
  | _, _ => none

/-- Lexicographic comparison of token lists, the model of Python list
ordering: first unequal position decides; ordering an int against a str
there raises (none); a strict prefix is smaller. -/
def cmpToks : List VTok → List VTok → Option Ordering
  | [], [] => some Ordering.eq
  | [], _ :: _ => some Ordering.lt
  | _ :: _, [] => some Ordering.gt
  | a :: la, b :: lb =>
    match cmpTok a b with
    | none => none
    | some Ordering.eq => cmpToks la lb
    | some o => some o

/-- The composite sort key computed by key_func in get_best_llama_model:
(parsed base version, is-latest flag, parsed tag version). -/
abbrev LlamaKey : Type := List VTok × Nat × List VTok

/-- Lexicographic comparison of composite keys, the model of Python tuple
ordering over the three slots of key_func. -/
def cmpKey (a b : LlamaKey) : Option Ordering :=
  match cmpToks a.1 b.1 with
  | none => none
  | some Ordering.lt => some Ordering.lt
  | some Ordering.gt => some Ordering.gt
  | some Ordering.eq =>
    match cmpN a.2.1 b.2.1 with
    | Ordering.lt => some Ordering.lt
    | Ordering.gt => some Ordering.gt
    | Ordering.eq => cmpToks a.2.2 b.2.2

/-- The comparison result is defined and is lt or eq: the left key does not
exceed the right key. -/
def keyLe (a b : LlamaKey) : Prop :=
  cmpKey a b = some Ordering.lt ∨ cmpKey a b = some Ordering.eq

/-- ASCII lowercasing of a string, the model of str.lower() on the ASCII
model names the program handles. -/
def pyLower (s : String) : String := String.mk (s.data.map Char.toLower)

/-- Does the second list start with the first list? -/
def startsWithChars : List Char → List Char → Bool
  | [], _ => true
  | _ :: _, [] => false
  | p :: ps, c :: cs => p == c && startsWithChars ps cs

/-- Embedding of str.startswith. -/
def strStartsWith (s pre : String) : Bool := startsWithChars pre.data s.data

/-- Split a char list at every occurrence of sep, keeping empty pieces:
the model of str.split with an explicit one-char separator. -/
def splitOnChar (sep : Char) : List Char → List (List Char)
  | [] => [[]]
  | c :: rest =>
    match splitOnChar sep rest with
    | [] => [[c]]
    | g :: gs => if c = sep then [] :: g :: gs else (c :: g) :: gs

/-- Greedy match of the regex fragment of digits and dot-digit groups, for
an input beginning at a digit: returns the matched chars and the rest. -/
def grabDotted : List Char → List Char × List Char
  | [] => ([], [])
  | c :: cs =>
    if isDig c then
      match grabDotted cs with
      | (m, r) => (c :: m, r)
    else if c = '.' then
      match cs with
      | d :: _ =>
        if isDig d then
          match grabDotted cs with
          | (m, r) => ('.' :: m, r)
        else ([], c :: cs)
      | [] => ([], c :: cs)
    else ([], c :: cs)

/-- The chars of the literal llama. -/
def llamaChars : List Char := ['l', 'l', 'a', 'm', 'a']

/-- Leftmost search for llama followed by a dotted number, returning the
captured group: the model of re.search over the base-name pattern used by
key_func (the group is one digit run followed by dot separated digit runs,
matched greedily). -/
def searchLlamaVersion : List Char → Option (List Char)
  | [] => none
  | c :: cs =>
    if startsWithChars llamaChars (c :: cs) then
      match (c :: cs).drop 5 with
      | d :: rest =>
        if isDig d then some (grabDotted (d :: rest)).1
        else searchLlamaVersion cs
      | [] => searchLlamaVersion cs
    else searchLlamaVersion cs

/-- Embedding of key_func inside get_best_llama_model: split the model name
on the colon, extract the dotted base version after llama (default^0 when
absent), and build the composite key. -/
def keyFunc (model : String) : LlamaKey :=
  let parts := splitOnChar ':' model.data
  let base_name : List Char :=
    match parts with
    | [] => []
    | p :: _ => p
  let version : String :=
    match parts with
    | _ :: q :: _ => String.mk q
    | _ => ""
  let base_version : String :=
    match searchLlamaVersion (pyLower (String.mk base_name)).data with
    | some v => String.mk v
    | none => "0"
  (parse_version base_version,
   if version = "latest" then 1 else 0,
   parse_version version)

/-- The llama-family filter applied by get_best_llama_model. -/
def llamaFilter (models : List String) : List String :=
  models.filter (fun m => strStartsWith (pyLower m) "llama")

/-- Embedding of the builtin max with a key function: keep the current best
and replace it when a later item compares strictly greater; an undefined
comparison is the raised TypeError, modelled as an error. -/
def pyMaxGo (key : α → LlamaKey) (best : α) : List α → Except Unit α
  | [] => Except.ok best
  | y :: ys =>
    match cmpKey (key y) (key best) with
    | none => Except.error ()
    | some Ordering.gt => pyMaxGo key y ys
    | some _ => pyMaxGo key best ys

/-- Embedding of get_best_llama_model: filter to llama-family names, return
none for an empty filter, otherwise the max under key_func; a raised
comparison error propagates. -/
def get_best_llama_model (models : List String) : Except Unit (Option String) :=
  match llamaFilter models with
  | [] => Except.ok none
  | x :: xs =>
    match pyMaxGo keyFunc x xs with
    | Except.ok m => Except.ok (some m)
    | Except.error e => Except.error e

/-- Embedding of get_available_models: the fetch outcome is a parameter; a
request error is swallowed and yields the empty list. -/
def get_available_models (fetch : Except Unit (List String)) : List String :=
  match fetch with
  | Except.ok l => l
  | Except.error _ => []

/-- The fallback of get_best_model: first model of the unfiltered list, or
the hardcoded default llama2 for an empty list. -/
def fallbackModel : List String → String
  | [] => "llama2"
  | a :: _ => a

/-- Embedding of get_best_model: best llama model, or (through Python
truthiness of the or expression, where None and the empty string are both
falsy) the fallback; a comparison error propagates. -/
def get_best_model (fetch : Except Unit (List String)) : Except Unit String :=
  let available_models := get_available_models fetch
  match get_best_llama_model available_models with
  | Except.error e => Except.error e
  | Except.ok b =>
    Except.ok
      (match b with
       | some m => if m = "" then fallbackModel available_models else m
       | none => fallbackModel available_models)

/-- The word-cap constant MAX_LLM_RESPONSE_WORDS of pipulate.py. -/
def MAX_LLM_RESPONSE_WORDS : Nat := 40

/-- One observed HTTP reply of the chat-completion endpoint: status code,
raw body text, and the content field of the parsed JSON message (only read
on status 200). -/
structure BackendChatResponse where
  status : Nat
  text : String
  content : String

/-- Embedding of chat_with_ollama: on status 200 return the message
content, otherwise format the status code and body into the error string
the function returns instead of raising. -/
def chat_with_ollama (r : BackendChatResponse) : String :=
  if r.status = 200 then r.content
  else "Error: " ++ toString r.status ++ ", " ++ r.text

/-- Join char blocks with a single separator char between them: shared
shape of the join of str.join and of dotted version literals. -/
def sepConcat (sep : Char) : List (List Char) → List Char
  | [] => []
  | [b] => b
  | b :: rest => b ++ sep :: sepConcat sep rest

/-- Embedding of the space join used for partial_response. -/
def joinSp (l : List String) : String :=
  String.mk (sepConcat ' ' (l.map String.data))

/-- Embedding of str.split() with no argument: maximal non-whitespace runs,
empty runs never produced. -/
def pySplit (s : String) : List String :=
  (runsBy isWs s.data).filterMap
    (fun r => if r.1 then none else some (String.mk r.2))

/-- Embedding of limit_llm_response: keep the first
MAX_LLM_RESPONSE_WORDS words and rejoin them with single spaces. -/
def limit_llm_response (response : String) : String :=
  joinSp ((pySplit response).take MAX_LLM_RESPONSE_WORDS)

/-- The increasing word joins produced by the replay loop: element i is
the join of the first i+1 words of the response. -/
def partialsList (s : String) : List String :=
  let ws := pySplit s
  (List.range ws.length).map (fun i => joinSp (ws.take (i + 1)))

/-- One observable event of a replay loop: a delivery of a payload string
to a recipient key, or a pause of so many milliseconds. -/
inductive Ev where
  | sent : String → String → Ev
  | slept : Nat → Ev
deriving DecidableEq, Repr

/-- The replay loop of generate_and_stream_ai_response (and of the
WebSocket handler): k remaining iterations starting at word index i; each
iteration sends the current partial join to every key registered at that
moment (the snapshot reg i) and then sleeps 50 milliseconds. -/
def replaySteps (ws : List String) (reg : Nat → List String) : Nat → Nat → List Ev
  | 0, _ => []
  | Nat.succ k, i =>
    ((reg i).map (fun u => Ev.sent u (joinSp (ws.take (i + 1))))) ++
      Ev.slept 50 :: replaySteps ws reg k (i + 1)

/-- Embedding of generate_and_stream_ai_response: obtain the full backend
reply (the threadpool call is modelled as the direct value), split it into
words and replay all prefixes to the registry snapshots. -/
def generate_and_stream_ai_response (r : BackendChatResponse)
    (reg : Nat → List String) : List Ev :=
  let response := chat_with_ollama r
  let ws := pySplit response
  replaySteps ws reg ws.length 0

/-- Embedding of the delivery content of quick_message: the same full
reply replayed as increasing word joins through the single chatter
callback. -/
def quick_message (r : BackendChatResponse) : List String :=
  partialsList (chat_with_ollama r)

/-- The sent events of a trace, as recipient and payload pairs. -/
def sentOf (evs : List Ev) : List (String × String) :=
  evs.filterMap
    (fun e =>
      match e with
      | Ev.sent u p => some (u, p)
      | Ev.slept _ => none)

/-- The sleep durations of a trace, in order. -/
def sleepsOf (evs : List Ev) : List Nat :=
  evs.filterMap
    (fun e =>
      match e with
      | Ev.sent _ _ => none
      | Ev.slept n => some n)

/-- The payloads delivered to one recipient key, in order. -/
def deliveriesTo (u : String) (evs : List (String × String)) : List String :=
  evs.filterMap (fun e => if e.1 == u then some e.2 else none)

/-- Occurrences of one key in a snapshot list. -/
def countEq (u : String) (l : List String) : Nat :=
  (l.filter (fun v => v == u)).length

/-- Embedding of on_conn: register (or re-register) the send callback of a
connection key; callbacks are modelled as numeric handles. -/
def on_conn (d : List (String × Nat)) (k : String) (v : Nat) : List (String × Nat) :=
  if d.any (fun e => e.1 == k)
  then d.map (fun e => if e.1 == k then (k, v) else e)
  else d ++ [(k, v)]

/-- Embedding of on_disconn: users.pop(key, None) removes the entry when
present and is a no-op otherwise. -/
def on_disconn (d : List (String × Nat)) (k : String) : List (String × Nat) :=
  d.filter (fun e => e.1 != k)

/-- Lookup of a registered callback by connection key. -/
def dictLookup (d : List (String × Nat)) (k : String) : Option Nat :=
  (d.find? (fun e => e.1 == k)).map (fun e => e.2)

/-- One conversation entry, as the role and content dict of pipulate.py. -/
structure ChatMsg where
  role : String
  content : String
deriving DecidableEq, Repr

/-- The initial conversation: the single system entry. -/
def conversationInit : List ChatMsg :=
  [{ role := "system",
     content := "You are a Todo App with attitude. Be sassy but helpful." }]

/-- One pass of the WebSocket handler over the conversation: a non-empty
message appends the user entry and then the assistant reply; an empty
message leaves the conversation untouched. -/
def wsStep (conv : List ChatMsg) (msg response : String) : List ChatMsg :=
  if msg = "" then conv
  else conv ++ [{ role := "user", content := msg },
                { role := "assistant", content := response }]

/-- The conversation states reachable over the life of the process:
the initial list, closed under handler passes. -/
inductive ConvReachable : List ChatMsg → Prop
  | init : ConvReachable conversationInit
  | step (c : List ChatMsg) (m r : String) :
      ConvReachable c → ConvReachable (wsStep c m r)

/-- The conversation invariant: the system entry stays first and every
entry carries one of the three roles. -/
def ConvInv (c : List ChatMsg) : Prop :=
  c.head? = some { role := "system",
                   content := "You are a Todo App with attitude. Be sassy but helpful." } ∧
  ∀ e ∈ c, e.role = "system" ∨ e.role = "user" ∨ e.role = "assistant"

/-- Total lexicographic order on natural sequences, shorter prefix first:
the numeric comparison of dotted version components. -/
def natsLex : List Nat → List Nat → Ordering
  | [], [] => Ordering.eq
  | [], _ :: _ => Ordering.lt
  | _ :: _, [] => Ordering.gt
  | a :: la, b :: lb =>
    match cmpN a b with
    | Ordering.eq => natsLex la lb
    | o => o

/-- A block is a non-empty run of digits. -/
def digitBlockB (b : List Char) : Bool := !b.isEmpty && b.all isDig

/-- The run decomposition of blocks joined by a single separator char:
blocks carry kind k, each separator is a singleton run of kind not k. -/
def runsOfSep (k : Bool) (sep : Char) : List (List Char) → List (Bool × List Char)
  | [] => []
  | [b] => [(k, b)]
  | b :: rest => (k, b) :: (!k, [sep]) :: runsOfSep k sep rest

/-- The token list of a dotted numeral with the given digit blocks. -/
def toksOfBlocks : List (List Char) → List VTok
  | [] => []
  | [b] => [VTok.int (strToNat b)]
  | b :: rest => VTok.int (strToNat b) :: VTok.str ['.'] :: toksOfBlocks rest

/-! Laws of the comparators, level by level: reflexivity, swap symmetry,
transitivity of the strict order, and congruence of the eq result. They
combine into transitivity of keyLe, which the max fold needs. -/

theorem cmpN_refl (a : Nat) : cmpN a a = Ordering.eq := by
  simp [cmpN]

theorem cmpN_eq_iff {a b : Nat} : cmpN a b = Ordering.eq ↔ a = b := by
  unfold cmpN
  split_ifs with h1 h2
  · exact ⟨fun h => absurd h (by simp), fun h => absurd h (by omega)⟩
  · exact ⟨fun _ => h2, fun _ => rfl⟩
  · exact ⟨fun h => absurd h (by simp), fun h => absurd h h2⟩

theorem cmpN_lt_iff {a b : Nat} : cmpN a b = Ordering.lt ↔ a < b := by
  unfold cmpN
  split_ifs with h1 h2
  · exact ⟨fun _ => h1, fun _ => rfl⟩
  · exact ⟨fun h => absurd h (by simp), fun h => absurd h (by omega)⟩
  · exact ⟨fun h => absurd h (by simp), fun h => absurd h h1⟩

theorem cmpN_swap (a b : Nat) : cmpN b a = (cmpN a b).swap := by
  unfold cmpN
  split_ifs <;> first | rfl | (exfalso; omega)

theorem cmpN_lt_trans {a b c : Nat} (h1 : cmpN a b = Ordering.lt)
    (h2 : cmpN b c = Ordering.lt) : cmpN a c = Ordering.lt := by
  rw [cmpN_lt_iff] at h1 h2 ⊢
  omega

theorem cmpChar_refl (a : Char) : cmpChar a a = Ordering.eq := cmpN_refl _

theorem cmpChar_swap (a b : Char) : cmpChar b a = (cmpChar a b).swap := cmpN_swap _ _

theorem cmpChar_lt_trans {a b c : Char} (h1 : cmpChar a b = Ordering.lt)
    (h2 : cmpChar b c = Ordering.lt) : cmpChar a c = Ordering.lt :=
  cmpN_lt_trans h1 h2

theorem cmpChar_eq_left {a b : Char} (h : cmpChar a b = Ordering.eq) (c : Char) :
    cmpChar a c = cmpChar b c := by
  unfold cmpChar at h ⊢
  rw [cmpN_eq_iff.mp h]

theorem cmpChar_eq_right {b c : Char} (h : cmpChar b c = Ordering.eq) (a : Char) :
    cmpChar a b = cmpChar a c := by
  unfold cmpChar at h ⊢
  rw [cmpN_eq_iff.mp h]

theorem cmpCharList_refl : ∀ l, cmpCharList l l = Ordering.eq
  | [] => rfl
  | a :: l => by simp [cmpCharList, cmpChar_refl, cmpCharList_refl l]

theorem cmpCharList_swap : ∀ la lb, cmpCharList lb la = (cmpCharList la lb).swap := by
  intro la
  induction la with
  | nil => intro lb; cases lb <;> rfl
  | cons a la ih =>
    intro lb
    cases lb with
    | nil => rfl
    | cons b lb =>
      simp only [cmpCharList]
      rw [cmpChar_swap a b]
      cases hab : cmpChar a b with
      | lt => simp [Ordering.swap]
      | eq => simp [Ordering.swap, ih lb]
      | gt => simp [Ordering.swap]

theorem cmpCharList_lt_trans :
    ∀ la lb lc, cmpCharList la lb = Ordering.lt → cmpCharList lb lc = Ordering.lt →
      cmpCharList la lc = Ordering.lt := by
  intro la
  induction la with
  | nil =>
    intro lb lc h1 h2
    cases lb with
    | nil => simp [cmpCharList] at h1
    | cons b lb =>
      cases lc with
      | nil => simp [cmpCharList] at h2
      | cons c lc => rfl
  | cons a la ih =>
    intro lb lc h1 h2
    cases lb with
    | nil => simp [cmpCharList] at h1
    | cons b lb =>
      cases lc with
      | nil => simp [cmpCharList] at h2
      | cons c lc =>
        simp only [cmpCharList] at h1 h2 ⊢
        cases hab : cmpChar a b with
        | lt =>
          cases hbc : cmpChar b c with
          | lt => simp [cmpChar_lt_trans hab hbc]
          | eq => rw [← cmpChar_eq_right hbc a]; simp [hab]
          | gt => simp [hbc] at h2
        | eq =>
          simp only [hab] at h1
          cases hbc : cmpChar b c with
          | lt => simp [cmpChar_eq_left hab c, hbc]
          | eq =>
            simp only [hbc] at h2
            simp [cmpChar_eq_left hab c, hbc]
            exact ih lb lc h1 h2
          | gt => simp [hbc] at h2
        | gt => simp [hab] at h1

theorem cmpCharList_eq_left :
    ∀ la lb, cmpCharList la lb = Ordering.eq →
      ∀ lc, cmpCharList la lc = cmpCharList lb lc := by
  intro la
  induction la with
  | nil =>
    intro lb h lc
    cases lb with
    | nil => rfl
    | cons b lb => simp [cmpCharList] at h
  | cons a la ih =>
    intro lb h lc
    cases lb with
    | nil => simp [cmpCharList] at h
    | cons b lb =>
      simp only [cmpCharList] at h
      cases hab : cmpChar a b with
      | lt => simp [hab] at h
      | gt => simp [hab] at h
      | eq =>
        simp only [hab] at h
        cases lc with
        | nil => rfl
        | cons c lc =>
          simp only [cmpCharList]
          rw [cmpChar_eq_left hab c, ih lb h lc]

theorem cmpCharList_eq_right {lb lc : List Char}
    (h : cmpCharList lb lc = Ordering.eq) (la : List Char) :
    cmpCharList la lb = cmpCharList la lc := by
  have h2 := cmpCharList_eq_left lb lc h la
  calc cmpCharList la lb = (cmpCharList lb la).swap := cmpCharList_swap lb la
    _ = (cmpCharList lc la).swap := by rw [h2]
    _ = cmpCharList la lc := by rw [cmpCharList_swap la lc, Ordering.swap_swap]

theorem cmpTok_refl : ∀ t, cmpTok t t = some Ordering.eq
  | VTok.int _ => by simp [cmpTok, cmpN_refl]
  | VTok.str _ => by simp [cmpTok, cmpCharList_refl]

theorem cmpTok_swap : ∀ a b, cmpTok b a = (cmpTok a b).map Ordering.swap
  | VTok.int x, VTok.int y => by
    show some (cmpN y x) = (some (cmpN x y)).map Ordering.swap
    rw [cmpN_swap x y]
    rfl
  | VTok.int _, VTok.str _ => rfl
  | VTok.str _, VTok.int _ => rfl
  | VTok.str x, VTok.str y => by
    show some (cmpCharList y x) = (some (cmpCharList x y)).map Ordering.swap
    rw [cmpCharList_swap x y]
    rfl

theorem cmpTok_lt_trans :
    ∀ {a b c}, cmpTok a b = some Ordering.lt → cmpTok b c = some Ordering.lt →
      cmpTok a c = some Ordering.lt
  | VTok.int _, VTok.int _, VTok.int _, h1, h2 => by
    simp only [cmpTok, Option.some.injEq] at h1 h2 ⊢
    exact cmpN_lt_trans h1 h2
  | VTok.str _, VTok.str _, VTok.str _, h1, h2 => by
    simp only [cmpTok, Option.some.injEq] at h1 h2 ⊢
    exact cmpCharList_lt_trans _ _ _ h1 h2
  | VTok.int _, VTok.str _, _, h1, _ => by simp [cmpTok] at h1
  | VTok.str _, VTok.int _, _, h1, _ => by simp [cmpTok] at h1
  | VTok.int _, VTok.int _, VTok.str _, _, h2 => by simp [cmpTok] at h2
  | VTok.str _, VTok.str _, VTok.int _, _, h2 => by simp [cmpTok] at h2

theorem cmpTok_eq_left :
    ∀ {a b}, cmpTok a b = some Ordering.eq → ∀ c, cmpTok a c = cmpTok b c
  | VTok.int x, VTok.int y, h, c => by
    simp only [cmpTok, Option.some.injEq] at h
    rw [cmpN_eq_iff.mp h]
  | VTok.str x, VTok.str y, h, c => by
    simp only [cmpTok, Option.some.injEq] at h
    cases c with
    | int _ => rfl
    | str z => simp only [cmpTok]; rw [cmpCharList_eq_left x y h z]
  | VTok.int _, VTok.str _, h, _ => by simp [cmpTok] at h
  | VTok.str _, VTok.int _, h, _ => by simp [cmpTok] at h

theorem cmpTok_eq_right {b c : VTok} (h : cmpTok b c = some Ordering.eq) (a : VTok) :
    cmpTok a b = cmpTok a c := by
  have h2 := cmpTok_eq_left h a
  calc cmpTok a b = (cmpTok b a).map Ordering.swap := cmpTok_swap b a
    _ = (cmpTok c a).map Ordering.swap := by rw [h2]
    _ = cmpTok a c := by
        rw [cmpTok_swap a c, Option.map_map]
        cases cmpTok a c with
        | none => rfl
        | some o => simp [Ordering.swap_swap]

theorem cmpToks_refl : ∀ l, cmpToks l l = some Ordering.eq
  | [] => rfl
  | t :: l => by simp [cmpToks, cmpTok_refl, cmpToks_refl l]

theorem cmpToks_swap : ∀ la lb, cmpToks lb la = (cmpToks la lb).map Ordering.swap := by
  intro la
  induction la with
  | nil => intro lb; cases lb <;> rfl
  | cons a la ih =>
    intro lb
    cases lb with
    | nil => rfl
    | cons b lb =>
      simp only [cmpToks]
      rw [cmpTok_swap a b]
      cases hab : cmpTok a b with
      | none => rfl
      | some o => cases o <;> simp [Ordering.swap, ih lb]

theorem cmpToks_lt_trans :
    ∀ la lb lc, cmpToks la lb = some Ordering.lt → cmpToks lb lc = some Ordering.lt →
      cmpToks la lc = some Ordering.lt := by
  intro la
  induction la with
  | nil =>
    intro lb lc h1 h2
    cases lb with
    | nil => simp [cmpToks] at h1
    | cons b lb =>
      cases lc with
      | nil => simp [cmpToks] at h2
      | cons c lc => rfl
  | cons a la ih =>
    intro lb lc h1 h2
    cases lb with
    | nil => simp [cmpToks] at h1
    | cons b lb =>
      cases lc with
      | nil => simp [cmpToks] at h2
      | cons c lc =>
        simp only [cmpToks] at h1 h2 ⊢
        cases hab : cmpTok a b with
        | none => simp [hab] at h1
        | some oab =>
          cases hbc : cmpTok b c with
          | none => simp [hbc] at h2
          | some obc =>
            cases oab with
            | gt => simp [hab] at h1
            | lt =>
              cases obc with
              | gt => simp [hbc] at h2
              | lt => simp [cmpTok_lt_trans hab hbc]
              | eq => rw [← cmpTok_eq_right hbc a]; simp [hab]
            | eq =>
              simp only [hab] at h1
              cases obc with
              | gt => simp [hbc] at h2
              | lt => simp [cmpTok_eq_left hab c, hbc]
              | eq =>
                simp only [hbc] at h2
                simp [cmpTok_eq_left hab c, hbc]
                exact ih lb lc h1 h2

theorem cmpToks_eq_left :
    ∀ la lb, cmpToks la lb = some Ordering.eq →
      ∀ lc, cmpToks la lc = cmpToks lb lc := by
  intro la
  induction la with
  | nil =>
    intro lb h lc
    cases lb with
    | nil => rfl
    | cons b lb => simp [cmpToks] at h
  | cons a la ih =>
    intro lb h lc
    cases lb with
    | nil => simp [cmpToks] at h
    | cons b lb =>
      simp only [cmpToks] at h
      cases hab : cmpTok a b with
      | none => simp [hab] at h
      | some oab =>
        cases oab with
        | lt => simp [hab] at h
        | gt => simp [hab] at h
        | eq =>
          simp only [hab] at h
          cases lc with
          | nil => rfl
          | cons c lc =>
            simp only [cmpToks]
            rw [cmpTok_eq_left hab c, ih lb h lc]

theorem cmpToks_eq_right {lb lc : List VTok}
    (h : cmpToks lb lc = some Ordering.eq) (la : List VTok) :
    cmpToks la lb = cmpToks la lc := by
  have h2 := cmpToks_eq_left lb lc h la
  calc cmpToks la lb = (cmpToks lb la).map Ordering.swap := cmpToks_swap lb la
    _ = (cmpToks lc la).map Ordering.swap := by rw [h2]
    _ = cmpToks la lc := by
        rw [cmpToks_swap la lc, Option.map_map]
        cases cmpToks la lc with
        | none => rfl
        | some o => simp [Ordering.swap_swap]

theorem cmpKey_refl (k : LlamaKey) : cmpKey k k = some Ordering.eq := by
  simp [cmpKey, cmpToks_refl, cmpN_refl]

theorem cmpKey_swap (a b : LlamaKey) : cmpKey b a = (cmpKey a b).map Ordering.swap := by
  unfold cmpKey
  rw [cmpToks_swap a.1 b.1, cmpN_swap a.2.1 b.2.1, cmpToks_swap a.2.2 b.2.2]
  cases h1 : cmpToks a.1 b.1 with
  | none => rfl
  | some o1 =>
    cases o1 with
    | lt => rfl
    | gt => rfl
    | eq =>
      cases h2 : cmpN a.2.1 b.2.1 with
      | lt => rfl
      | gt => rfl
      | eq =>
        cases h3 : cmpToks a.2.2 b.2.2 with
        | none => rfl
        | some o3 => cases o3 <;> rfl

theorem cmpKey_lt_iff {a b : LlamaKey} :
    cmpKey a b = some Ordering.lt ↔
      cmpToks a.1 b.1 = some Ordering.lt ∨
      (cmpToks a.1 b.1 = some Ordering.eq ∧ cmpN a.2.1 b.2.1 = Ordering.lt) ∨
      (cmpToks a.1 b.1 = some Ordering.eq ∧ cmpN a.2.1 b.2.1 = Ordering.eq ∧
        cmpToks a.2.2 b.2.2 = some Ordering.lt) := by
  unfold cmpKey
  cases h1 : cmpToks a.1 b.1 with
  | none => simp
  | some o1 =>
    cases o1 with
    | lt => simp
    | gt => simp
    | eq =>
      cases h2 : cmpN a.2.1 b.2.1 with
      | lt => simp
      | gt => simp
      | eq => simp

theorem cmpKey_eq_iff {a b : LlamaKey} :
    cmpKey a b = some Ordering.eq ↔
      cmpToks a.1 b.1 = some Ordering.eq ∧ cmpN a.2.1 b.2.1 = Ordering.eq ∧
        cmpToks a.2.2 b.2.2 = some Ordering.eq := by
  unfold cmpKey
  cases h1 : cmpToks a.1 b.1 with
  | none => simp
  | some o1 =>
    cases o1 with
    | lt => simp
    | gt => simp
    | eq =>
      cases h2 : cmpN a.2.1 b.2.1 with
      | lt => simp
      | gt => simp
      | eq => simp

theorem cmpKey_eq_left {a b : LlamaKey} (h : cmpKey a b = some Ordering.eq)
    (c : LlamaKey) : cmpKey a c = cmpKey b c := by
  obtain ⟨s1, s2, s3⟩ := cmpKey_eq_iff.mp h
  unfold cmpKey
  rw [cmpToks_eq_left _ _ s1 c.1, cmpN_eq_iff.mp s2, cmpToks_eq_left _ _ s3 c.2.2]

theorem cmpKey_eq_right {b c : LlamaKey} (h : cmpKey b c = some Ordering.eq)
    (a : LlamaKey) : cmpKey a b = cmpKey a c := by
  obtain ⟨s1, s2, s3⟩ := cmpKey_eq_iff.mp h
  unfold cmpKey
  rw [cmpToks_eq_right s1 a.1, cmpN_eq_iff.mp s2, cmpToks_eq_right s3 a.2.2]

theorem cmpKey_lt_trans {a b c : LlamaKey} (h1 : cmpKey a b = some Ordering.lt)
    (h2 : cmpKey b c = some Ordering.lt) : cmpKey a c = some Ordering.lt := by
  rw [cmpKey_lt_iff] at h1 h2 ⊢
  rcases h1 with h1 | ⟨h1a, h1b⟩ | ⟨h1a, h1b, h1c⟩
  · rcases h2 with h2 | ⟨h2a, h2b⟩ | ⟨h2a, h2b, h2c⟩
    · exact Or.inl (cmpToks_lt_trans _ _ _ h1 h2)
    · exact Or.inl (by rw [← cmpToks_eq_right h2a a.1]; exact h1)
    · exact Or.inl (by rw [← cmpToks_eq_right h2a a.1]; exact h1)
  · rcases h2 with h2 | ⟨h2a, h2b⟩ | ⟨h2a, h2b, h2c⟩
    · exact Or.inl (by rw [cmpToks_eq_left _ _ h1a c.1]; exact h2)
    · refine Or.inr (Or.inl ⟨by rw [cmpToks_eq_left _ _ h1a c.1]; exact h2a, ?_⟩)
      rw [cmpN_lt_iff] at h1b h2b ⊢
      omega
    · refine Or.inr (Or.inl ⟨by rw [cmpToks_eq_left _ _ h1a c.1]; exact h2a, ?_⟩)
      rw [← cmpN_eq_iff.mp h2b]
      exact h1b
  · rcases h2 with h2 | ⟨h2a, h2b⟩ | ⟨h2a, h2b, h2c⟩
    · exact Or.inl (by rw [cmpToks_eq_left _ _ h1a c.1]; exact h2)
    · refine Or.inr (Or.inl ⟨by rw [cmpToks_eq_left _ _ h1a c.1]; exact h2a, ?_⟩)
      rw [cmpN_eq_iff.mp h1b]
      exact h2b
    · refine Or.inr (Or.inr ⟨by rw [cmpToks_eq_left _ _ h1a c.1]; exact h2a, ?_, ?_⟩)
      · rw [cmpN_eq_iff.mp h1b]; exact h2b
      · exact cmpToks_lt_trans _ _ _ h1c h2c

theorem cmpKey_gt_swap {a b : LlamaKey} (h : cmpKey a b = some Ordering.gt) :
    cmpKey b a = some Ordering.lt := by
  rw [cmpKey_swap a b, h]
  rfl

theorem keyLe_refl (k : LlamaKey) : keyLe k k := Or.inr (cmpKey_refl k)

theorem keyLe_trans {a b c : LlamaKey} (h1 : keyLe a b) (h2 : keyLe b c) :
    keyLe a c := by
  rcases h1 with h1 | h1
  · rcases h2 with h2 | h2
    · exact Or.inl (cmpKey_lt_trans h1 h2)
    · exact Or.inl ((cmpKey_eq_right h2 a).symm.trans h1)
  · have h3 := cmpKey_eq_left h1 c
    rcases h2 with h2 | h2
    · exact Or.inl (h3.trans h2)
    · exact Or.inr (h3.trans h2)

theorem pyMaxGo_mem {α : Type} (key : α → LlamaKey) :
    ∀ (l : List α) (best m : α), pyMaxGo key best l = Except.ok m →
      m = best ∨ m ∈ l := by
  intro l
  induction l with
  | nil =>
    intro best m h
    simp only [pyMaxGo, Except.ok.injEq] at h
    exact Or.inl h.symm
  | cons y ys ih =>
    intro best m h
    simp only [pyMaxGo] at h
    cases hc : cmpKey (key y) (key best) with
    | none => simp [hc] at h
    | some o =>
      simp only [hc] at h
      cases o with
      | gt =>
        rcases ih y m h with h3 | h3
        · exact Or.inr (by simp [h3])
        · exact Or.inr (by simp [h3])
      | lt =>
        rcases ih best m h with h3 | h3
        · exact Or.inl h3
        · exact Or.inr (by simp [h3])
      | eq =>
        rcases ih best m h with h3 | h3
        · exact Or.inl h3
        · exact Or.inr (by simp [h3])

theorem pyMaxGo_ge {α : Type} (key : α → LlamaKey) :
    ∀ (l : List α) (best m : α), pyMaxGo key best l = Except.ok m →
      keyLe (key best) (key m) ∧ ∀ y ∈ l, keyLe (key y) (key m) := by
  intro l
  induction l with
  | nil =>
    intro best m h
    simp only [pyMaxGo, Except.ok.injEq] at h
    subst h
    exact ⟨keyLe_refl _, by simp⟩
  | cons y ys ih =>
    intro best m h
    simp only [pyMaxGo] at h
    cases hc : cmpKey (key y) (key best) with
    | none => simp [hc] at h
    | some o =>
      simp only [hc] at h
      cases o with
      | gt =>
        obtain ⟨hy, hall⟩ := ih y m h
        refine ⟨keyLe_trans (Or.inl (cmpKey_gt_swap hc)) hy, ?_⟩
        intro z hz
        rcases List.mem_cons.mp hz with rfl | hz2
        · exact hy
        · exact hall z hz2
      | lt =>
        obtain ⟨hb, hall⟩ := ih best m h
        refine ⟨hb, ?_⟩
        intro z hz
        rcases List.mem_cons.mp hz with rfl | hz2
        · exact keyLe_trans (Or.inl hc) hb
        · exact hall z hz2
      | eq =>
        obtain ⟨hb, hall⟩ := ih best m h
        refine ⟨hb, ?_⟩
        intro z hz
        rcases List.mem_cons.mp hz with rfl | hz2
        · exact keyLe_trans (Or.inr hc) hb
        · exact hall z hz2

/-- C1 (amended): whenever get_best_llama_model returns a model, that model
is a llama-family candidate whose composite key (parsed base version,
is-latest flag, parsed tag version) is maximal among the candidates under
the component-wise Version Key ordering, provided the key comparisons the
selection performs are all defined; in particular it returns llama3.1:7b
from the first example list and llama2:latest from the second. As stated
for every list the claim fails, because the comparison is partial (see the
counterexample). -/
theorem c1_selector_max_key :
    (∀ (models : List String) (m : String),
        get_best_llama_model models = Except.ok (some m) →
        m ∈ llamaFilter models ∧
        ∀ c ∈ llamaFilter models, keyLe (keyFunc c) (keyFunc m)) ∧
    get_best_llama_model ["llama2:latest", "llama3.1:7b", "mistral:latest"] =
      Except.ok (some "llama3.1:7b") ∧
    get_best_llama_model ["llama2:latest", "llama2:7b"] =
      Except.ok (some "llama2:latest") := by
  refine ⟨?_, by rfl, by rfl⟩
  intro models m h
  unfold get_best_llama_model at h
  cases hf : llamaFilter models with
  | nil => simp [hf] at h
  | cons x xs =>
    simp only [hf] at h
    cases hp : pyMaxGo keyFunc x xs with
    | error e => simp [hp] at h
    | ok mm =>
      simp only [hp, Except.ok.injEq, Option.some.injEq] at h
      subst h
      constructor
      · rcases pyMaxGo_mem keyFunc xs x mm hp with h3 | h3
        · simp [h3]
        · simp [h3]
      · intro c hc
        obtain ⟨hb, hall⟩ := pyMaxGo_ge keyFunc xs x mm hp
        rcases List.mem_cons.mp hc with rfl | hc2
        · exact hb
        · exact hall c hc2

/-- Witness for C1: the maximality statement applied to the first example
list and its returned model. -/
theorem c1_selector_max_key_witness :
    "llama3.1:7b" ∈ llamaFilter ["llama2:latest", "llama3.1:7b", "mistral:latest"] ∧
    ∀ c ∈ llamaFilter ["llama2:latest", "llama3.1:7b", "mistral:latest"],
      keyLe (keyFunc c) (keyFunc "llama3.1:7b") :=
  c1_selector_max_key.1 ["llama2:latest", "llama3.1:7b", "mistral:latest"]
    "llama3.1:7b" (by rfl)

/-- C1 counterexample: the list [llama2:7b, llama2:beta] contains a
llama-family name, yet get_best_llama_model returns no candidate at all:
the tag key comparison of the two candidates is undefined (a raised
TypeError in the source), so the selection errors instead of producing
the maximal candidate the claim promises for every such list. -/
theorem c1_selector_error_counterexample :
    "llama2:7b" ∈ llamaFilter ["llama2:7b", "llama2:beta"] ∧
    get_best_llama_model ["llama2:7b", "llama2:beta"] = Except.error () := by
  exact ⟨by decide, by rfl⟩

/-- C10: the composite key comparison is partial: for the list
[llama2:7b, llama2:beta] the tag keys parse to an integer-headed list and
a string-headed list, their comparison is undefined (the TypeError of the
source), and selection errors instead of returning a model. -/
theorem c10_incomparable_tag_keys :
    parse_version "7b" = [VTok.int 7, VTok.str ['b']] ∧
    parse_version "beta" = [VTok.str ['b', 'e', 't', 'a']] ∧
    cmpKey (keyFunc "llama2:7b") (keyFunc "llama2:beta") = none ∧
    get_best_llama_model ["llama2:7b", "llama2:beta"] = Except.error () :=
  ⟨rfl, rfl, rfl, rfl⟩

/-- C4 counterexample: get_best_model propagates the comparison error of
get_best_llama_model, so for a backend that lists llama2:7b and
llama2:beta the selector raises instead of returning a usable model
identifier. -/
theorem c4_selector_raises_counterexample :
    get_best_model (Except.ok ["llama2:7b", "llama2:beta"]) = Except.error () := rfl

/-- C4 (amended): a network failure of the model-list fetch yields the
empty list and the selector then returns the hardcoded default llama2;
whenever get_best_llama_model completes without a comparison error,
get_best_model returns a model identifier. The unrestricted never-raises
part of the claim fails (see the counterexample). -/
theorem c4_selector_degrades :
    (get_available_models (Except.error ()) = [] ∧
     get_best_model (Except.error ()) = Except.ok "llama2") ∧
    (∀ (l : List String) (b : Option String),
        get_best_llama_model l = Except.ok b →
        ∃ m, get_best_model (Except.ok l) = Except.ok m) := by
  refine ⟨⟨rfl, rfl⟩, ?_⟩
  intro l b h
  simp only [get_best_model, get_available_models, h]
  exact ⟨_, rfl⟩

/-- Witness for C4: the degradation statement applied to a list with no
llama-family model. -/
theorem c4_selector_degrades_witness :
    ∃ m, get_best_model (Except.ok ["mistral:latest"]) = Except.ok m :=
  c4_selector_degrades.2 ["mistral:latest"] none (by rfl)

/-- C6: on a model list with no llama-family name, get_best_model returns
the first model of the unfiltered list when it is non-empty and the
hardcoded default llama2 when it is empty. -/
theorem c6_no_llama_fallback :
    ∀ (l : List String),
      (∀ m ∈ l, strStartsWith (pyLower m) "llama" = false) →
      get_best_model (Except.ok l) =
        Except.ok (match l with | [] => "llama2" | a :: _ => a) := by
  intro l h
  have hf : llamaFilter l = [] := by
    simp only [llamaFilter, List.filter_eq_nil_iff]
    intro a ha
    simp [h a ha]
  have hb : get_best_llama_model l = Except.ok none := by
    unfold get_best_llama_model
    rw [hf]
  simp only [get_best_model, get_available_models, hb]
  cases l with
  | nil => rfl
  | cons a l2 => rfl

/-- Witness for C6: the fallback statement applied to a non-empty list
without llama models and to the empty list. -/
theorem c6_no_llama_fallback_witness :
    get_best_model (Except.ok ["mistral:latest"]) = Except.ok "mistral:latest" ∧
    get_best_model (Except.ok []) = Except.ok "llama2" :=
  ⟨c6_no_llama_fallback ["mistral:latest"] (by decide),
   c6_no_llama_fallback [] (by decide)⟩

/-! Lemmas about the replay traces. -/

theorem sentOf_append (l1 l2 : List Ev) :
    sentOf (l1 ++ l2) = sentOf l1 ++ sentOf l2 :=
  List.filterMap_append l1 l2 _

theorem sentOf_sends (l : List String) (p : String) :
    sentOf (l.map (fun u => Ev.sent u p)) = l.map (fun u => (u, p)) := by
  induction l with
  | nil => rfl
  | cons a l ih =>
    simp only [List.map_cons, sentOf, List.filterMap_cons] at ih ⊢
    rw [ih]

theorem sleepsOf_sends (l : List String) (p : String) :
    sleepsOf (l.map (fun u => Ev.sent u p)) = [] := by
  induction l with
  | nil => rfl
  | cons a l ih =>
    simp only [List.map_cons, sleepsOf, List.filterMap_cons] at ih ⊢
    rw [ih]

theorem replaySteps_sent (ws : List String) (reg : Nat → List String) :
    ∀ (k i : Nat), sentOf (replaySteps ws reg k i) =
      (List.range k).flatMap
        (fun j => (reg (i + j)).map (fun u => (u, joinSp (ws.take (i + j + 1))))) := by
  intro k
  induction k with
  | zero => intro i; rfl
  | succ k ih =>
    intro i
    simp only [replaySteps]
    rw [sentOf_append]
    have hslept : sentOf (Ev.slept 50 :: replaySteps ws reg k (i + 1)) =
        sentOf (replaySteps ws reg k (i + 1)) := by
      simp [sentOf, List.filterMap_cons]
    rw [hslept, sentOf_sends, ih (i + 1), List.range_succ_eq_map,
        List.flatMap_cons, List.flatMap_map]
    simp only [Nat.add_zero, Nat.add_succ, Nat.succ_add, Nat.zero_add]

theorem replaySteps_sleeps (ws : List String) (reg : Nat → List String) :
    ∀ (k i : Nat), sleepsOf (replaySteps ws reg k i) = List.replicate k 50 := by
  intro k
  induction k with
  | zero => intro i; rfl
  | succ k ih =>
    intro i
    simp only [replaySteps]
    have happ : sleepsOf
        ((reg i).map (fun u => Ev.sent u (joinSp (ws.take (i + 1)))) ++
          Ev.slept 50 :: replaySteps ws reg k (i + 1)) =
        sleepsOf ((reg i).map (fun u => Ev.sent u (joinSp (ws.take (i + 1))))) ++
          sleepsOf (Ev.slept 50 :: replaySteps ws reg k (i + 1)) :=
      List.filterMap_append _ _ _
    rw [happ, sleepsOf_sends]
    simp only [sleepsOf, List.filterMap_cons, List.nil_append]
    rw [← sleepsOf, ih (i + 1), List.replicate_succ]

theorem deliveriesTo_group (u : String) (l : List String) (p : String) :
    deliveriesTo u (l.map (fun v => (v, p))) = List.replicate (countEq u l) p := by
  induction l with
  | nil => rfl
  | cons v l ih =>
    have hd : deliveriesTo u ((v, p) :: l.map (fun v2 => (v2, p))) =
        (if v == u then [p] else []) ++ deliveriesTo u (l.map (fun v2 => (v2, p))) := by
      simp only [deliveriesTo, List.filterMap_cons]
      cases hv : v == u <;> simp [hv]
    have hc : countEq u (v :: l) = (if v == u then 1 else 0) + countEq u l := by
      simp only [countEq, List.filter_cons]
      cases hv : v == u <;> simp [hv, Nat.add_comm]
    simp only [List.map_cons]
    rw [hd, ih, hc]
    cases hv : v == u with
    | false => simp [hv]
    | true =>
      simp only [hv, if_true]
      rw [Nat.add_comm 1 (countEq u l), List.replicate_succ]
      rfl

theorem deliveriesTo_flatMap (u : String) (L : List Nat) (reg : Nat → List String)
    (p : Nat → String) :
    deliveriesTo u (L.flatMap (fun j => (reg j).map (fun v => (v, p j)))) =
      L.flatMap (fun j => List.replicate (countEq u (reg j)) (p j)) := by
  induction L with
  | nil => rfl
  | cons j L ih =>
    simp only [List.flatMap_cons]
    have happ : deliveriesTo u
        ((reg j).map (fun v => (v, p j)) ++
          L.flatMap (fun j2 => (reg j2).map (fun v => (v, p j2)))) =
        deliveriesTo u ((reg j).map (fun v => (v, p j))) ++
          deliveriesTo u (L.flatMap (fun j2 => (reg j2).map (fun v => (v, p j2)))) :=
      List.filterMap_append _ _ _
    rw [happ, deliveriesTo_group, ih]

theorem gen_stream_deliveries (r : BackendChatResponse) (reg : Nat → List String)
    (u : String) :
    deliveriesTo u (sentOf (generate_and_stream_ai_response r reg)) =
      (List.range (pySplit (chat_with_ollama r)).length).flatMap
        (fun i => List.replicate (countEq u (reg i))
          (joinSp ((pySplit (chat_with_ollama r)).take (i + 1)))) := by
  simp only [generate_and_stream_ai_response]
  rw [replaySteps_sent]
  simp only [Nat.zero_add]
  rw [deliveriesTo_flatMap]

theorem flatMap_one (L : List Nat) (p : Nat → String) :
    L.flatMap (fun j => [p j]) = L.map p := by
  induction L with
  | nil => rfl
  | cons j L ih => simp [List.flatMap_cons, ih]

theorem on_disconn_lookup (d : List (String × Nat)) (k : String) :
    dictLookup (on_disconn d k) k = none := by
  unfold dictLookup
  suffices h : (on_disconn d k).find? (fun e => e.1 == k) = none by
    rw [h]
    rfl
  induction d with
  | nil => rfl
  | cons e d ih =>
    simp only [on_disconn, List.filter_cons] at ih ⊢
    cases he : e.1 == k with
    | true => simp [bne, he, ih]
    | false => simp [bne, he, List.find?_cons, ih]

/-- C2: for a successful backend reply, the replay performs exactly one
iteration per whitespace word of the response text: the iteration with
index i sends the join of the first i+1 words to every recipient key in
the registry snapshot of that iteration, and every iteration pauses 50
milliseconds, so a response of N words yields exactly N increments and N
pauses. -/
theorem c2_replay_increments :
    ∀ (text junk : String) (reg : Nat → List String),
      1 ≤ (pySplit text).length →
      sentOf (generate_and_stream_ai_response ⟨200, junk, text⟩ reg) =
        (List.range (pySplit text).length).flatMap
          (fun i => (reg i).map (fun u => (u, joinSp ((pySplit text).take (i + 1))))) ∧
      sleepsOf (generate_and_stream_ai_response ⟨200, junk, text⟩ reg) =
        List.replicate (pySplit text).length 50 := by
  intro text junk reg _h
  have hr : chat_with_ollama ⟨200, junk, text⟩ = text := rfl
  constructor
  · simp only [generate_and_stream_ai_response, hr]
    rw [replaySteps_sent]
    simp only [Nat.zero_add]
  · simp only [generate_and_stream_ai_response, hr]
    rw [replaySteps_sleeps]

/-- Witness for C2: the replay of the three word response a b c to one
registered recipient delivers exactly the increments a, a b, a b c with
three 50 millisecond pauses. -/
theorem c2_replay_increments_witness :
    sentOf (generate_and_stream_ai_response ⟨200, "", "a b c"⟩ (fun _ => ["u1"])) =
      [("u1", "a"), ("u1", "a b"), ("u1", "a b c")] ∧
    sleepsOf (generate_and_stream_ai_response ⟨200, "", "a b c"⟩ (fun _ => ["u1"])) =
      [50, 50, 50] := by
  have h := c2_replay_increments "a b c" "" (fun _ => ["u1"]) (by decide)
  exact ⟨h.1.trans (by decide), h.2.trans (by decide)⟩

/-- C3 counterexample: for backend status 500 with body oops, the error
string has three words, so a single registered recipient receives three
increments, not exactly one message. -/
theorem c3_single_message_counterexample :
    chat_with_ollama ⟨500, "oops", "ignored"⟩ = "Error: 500, oops" ∧
    (deliveriesTo "u1"
      (sentOf (generate_and_stream_ai_response ⟨500, "oops", "ignored"⟩
        (fun _ => ["u1"])))).length = 3 ∧
    (deliveriesTo "u1"
      (sentOf (generate_and_stream_ai_response ⟨500, "oops", "ignored"⟩
        (fun _ => ["u1"])))).length ≠ 1 := by
  refine ⟨rfl, by decide, by decide⟩

/-- C3 (amended): on a non-200 backend status, chat_with_ollama returns
the single error string naming the status code and the response body
without retrying or raising, and the responder then replays that string
through the standard word loop: a recipient registered throughout
receives one increment per whitespace word of the error string (the
prefix joins of partialsList), not exactly one message. -/
theorem c3_error_replay :
    ∀ (status : Nat) (text junk u : String),
      status ≠ 200 →
      chat_with_ollama ⟨status, text, junk⟩ =
        "Error: " ++ toString status ++ ", " ++ text ∧
      deliveriesTo u
        (sentOf (generate_and_stream_ai_response ⟨status, text, junk⟩
          (fun _ => [u]))) =
        partialsList ("Error: " ++ toString status ++ ", " ++ text) ∧
      (partialsList ("Error: " ++ toString status ++ ", " ++ text)).length =
        (pySplit ("Error: " ++ toString status ++ ", " ++ text)).length := by
  intro status text junk u h
  have herr : chat_with_ollama ⟨status, text, junk⟩ =
      "Error: " ++ toString status ++ ", " ++ text := by
    simp [chat_with_ollama, h]
  refine ⟨herr, ?_, by simp [partialsList]⟩
  rw [gen_stream_deliveries, herr]
  have hone : countEq u [u] = 1 := by simp [countEq]
  simp only [hone, List.replicate_one]
  rw [flatMap_one]
  rfl

/-- Witness for C3: the amended statement applied to status 404 with body
x and one registered recipient. -/
theorem c3_error_replay_witness :
    chat_with_ollama ⟨404, "x", "y"⟩ = "Error: 404, x" ∧
    deliveriesTo "u1"
      (sentOf (generate_and_stream_ai_response ⟨404, "x", "y"⟩
        (fun _ => ["u1"]))) = partialsList "Error: 404, x" ∧
    (partialsList "Error: 404, x").length = (pySplit "Error: 404, x").length :=
  c3_error_replay 404 "x" "y" "u1" (by decide)

/-- C8: on_disconn removes the entry of a key from the registry, and the
replay consults the live registry snapshot at each increment: the
deliveries to one key are exactly one copy per occurrence of the key in
the snapshot of each increment, so a key absent from every snapshot
(for example one unregistered before the replay) receives zero
increments, and a key that disappears mid-replay is skipped on all
later increments with no special handling. -/
theorem c8_disconnected_skipped :
    (∀ (d : List (String × Nat)) (k : String),
        dictLookup (on_disconn d k) k = none) ∧
    (∀ (r : BackendChatResponse) (reg : Nat → List String) (u : String),
        deliveriesTo u (sentOf (generate_and_stream_ai_response r reg)) =
          (List.range (pySplit (chat_with_ollama r)).length).flatMap
            (fun i => List.replicate (countEq u (reg i))
              (joinSp ((pySplit (chat_with_ollama r)).take (i + 1))))) ∧
    (∀ (r : BackendChatResponse) (reg : Nat → List String) (u : String),
        (∀ i, i < (pySplit (chat_with_ollama r)).length → countEq u (reg i) = 0) →
        deliveriesTo u (sentOf (generate_and_stream_ai_response r reg)) = []) := by
  refine ⟨on_disconn_lookup, gen_stream_deliveries, ?_⟩
  intro r reg u h
  rw [gen_stream_deliveries]
  rw [List.flatMap_eq_nil_iff]
  intro i hi
  rw [h i (List.mem_range.mp hi)]
  rfl

/-- Witness for C8: a key removed by on_disconn is absent from the
registry, and a key in no snapshot of the replay of a two word response
receives zero increments. -/
theorem c8_disconnected_skipped_witness :
    dictLookup (on_disconn [("u1", 7)] "u1") "u1" = none ∧
    deliveriesTo "gone"
      (sentOf (generate_and_stream_ai_response ⟨200, "", "a b"⟩
        (fun _ => ["u1"]))) = [] :=
  ⟨c8_disconnected_skipped.1 [("u1", 7)] "u1",
   c8_disconnected_skipped.2.2 ⟨200, "", "a b"⟩ (fun _ => ["u1"]) "gone" (by decide)⟩

/-- C9: every reachable conversation keeps the initial system entry as
its first element and every entry carries one of the roles system, user
or assistant; moreover one handler pass only appends, leaving all
existing entries unchanged and in order. -/
theorem c9_conversation_append_only :
    (∀ c, ConvReachable c → ConvInv c) ∧
    (∀ (c : List ChatMsg) (m r : String), ∃ t, wsStep c m r = c ++ t) := by
  constructor
  · intro c h
    induction h with
    | init =>
      constructor
      · rfl
      · intro e he
        simp only [conversationInit, List.mem_singleton] at he
        exact Or.inl (by rw [he])
    | step c m r _hc ih =>
      obtain ⟨h1, h2⟩ := ih
      unfold wsStep
      by_cases hm : m = ""
      · simp only [if_pos hm]
        exact ⟨h1, h2⟩
      · simp only [if_neg hm]
        constructor
        · rw [List.head?_append, h1]
          rfl
        · intro e he
          rcases List.mem_append.mp he with he1 | he2
          · exact h2 e he1
          · simp only [List.mem_cons] at he2
            rcases he2 with he2 | he2 | he2
            · exact Or.inr (Or.inl (by rw [he2]))
            · exact Or.inr (Or.inr (by rw [he2]))
            · exact absurd he2 (List.not_mem_nil e)
  · intro c m r
    unfold wsStep
    by_cases hm : m = ""
    · exact ⟨[], by simp [hm]⟩
    · exact ⟨[{ role := "user", content := m }, { role := "assistant", content := r }],
        by simp [hm]⟩

/-- Witness for C9: the invariant holds after one handler pass over the
initial conversation. -/
theorem c9_conversation_append_only_witness :
    ConvInv (wsStep conversationInit "hi" "there") :=
  c9_conversation_append_only.1 _ (ConvReachable.step _ _ _ ConvReachable.init)

/-! Structure of the run decomposition: a maximal run of one kind followed
by a rest of the other kind peels off as one group, so joining blocks with
a single separator char produces the expected alternating run list. -/

theorem runsBy_cons (p : Char → Bool) (c : Char) (cs : List Char) :
    runsBy p (c :: cs) =
      match runsBy p cs with
      | (b, run) :: rest =>
        if p c = b then (b, c :: run) :: rest
        else (p c, [c]) :: (b, run) :: rest
      | [] => [(p c, [c])] := rfl

theorem runsBy_headKind (p : Char → Bool) :
    ∀ cs : List Char, (runsBy p cs).head?.map Prod.fst = cs.head?.map p
  | [] => rfl
  | c :: cs => by
    rw [runsBy_cons]
    cases hr : runsBy p cs with
    | nil => rfl
    | cons b rest =>
      obtain ⟨k, run⟩ := b
      by_cases hb : p c = k <;> simp [hb]

theorem runsBy_block (p : Char → Bool) (k : Bool) :
    ∀ (b rest : List Char), b ≠ [] → (∀ c ∈ b, p c = k) →
      (∀ d, rest.head? = some d → p d = !k) →
      runsBy p (b ++ rest) = (k, b) :: runsBy p rest := by
  intro b
  induction b with
  | nil => intro rest hne _ _; exact absurd rfl hne
  | cons x b ih =>
    intro rest _ hall hrest
    have hx : p x = k := hall x (by simp)
    cases b with
    | nil =>
      rw [List.singleton_append, runsBy_cons]
      cases hr : runsBy p rest with
      | nil => simp [hx]
      | cons br tailr =>
        obtain ⟨kr, runr⟩ := br
        cases rest with
        | nil => simp [runsBy] at hr
        | cons d rest2 =>
          have hpd : p d = !k := hrest d rfl
          have h1 := runsBy_headKind p (d :: rest2)
          rw [hr] at h1
          have h2 : kr = p d := by simpa using h1
          have hkne : k ≠ !k := by cases k <;> simp
          have hne2 : ¬ (p x = kr) := by
            rw [hx, h2, hpd]
            exact hkne
          simp only [if_neg hne2]
          rw [hx]
    | cons y b2 =>
      have hih := ih rest (by simp)
        (fun c hc => hall c (List.mem_cons_of_mem x hc)) hrest
      rw [List.cons_append, runsBy_cons, hih]
      simp [hx]

theorem sepConcat_head (sep : Char) (b : List Char) (blocks : List (List Char))
    (hb : b ≠ []) : (sepConcat sep (b :: blocks)).head? = b.head? := by
  cases blocks with
  | nil => rfl
  | cons b2 blocks2 =>
    show (b ++ sep :: sepConcat sep (b2 :: blocks2)).head? = b.head?
    rw [List.head?_append]
    cases b with
    | nil => exact absurd rfl hb
    | cons x b2 => rfl

theorem runsBy_sepConcat (p : Char → Bool) (k : Bool) (sep : Char)
    (hsep : p sep = !k) :
    ∀ blocks, (∀ b ∈ blocks, b ≠ [] ∧ ∀ c ∈ b, p c = k) →
      runsBy p (sepConcat sep blocks) = runsOfSep k sep blocks := by
  intro blocks
  induction blocks with
  | nil => intro _; rfl
  | cons b blocks ih =>
    intro h
    obtain ⟨hbne, hball⟩ := h b (by simp)
    cases blocks with
    | nil =>
      show runsBy p b = [(k, b)]
      have h0 := runsBy_block p k b [] hbne hball (fun d hd => by simp at hd)
      rw [List.append_nil] at h0
      rw [h0]
      rfl
    | cons b2 blocks2 =>
      obtain ⟨hb2ne, hb2all⟩ := h b2 (by simp)
      show runsBy p (b ++ sep :: sepConcat sep (b2 :: blocks2)) = _
      have hrest1 : ∀ d, (sep :: sepConcat sep (b2 :: blocks2)).head? = some d →
          p d = !k := by
        intro d hd
        simp only [List.head?_cons, Option.some.injEq] at hd
        rw [← hd]
        exact hsep
      rw [runsBy_block p k b (sep :: sepConcat sep (b2 :: blocks2)) hbne hball hrest1]
      have hrest2 : ∀ d, (sepConcat sep (b2 :: blocks2)).head? = some d →
          p d = !(!k) := by
        intro d hd
        rw [sepConcat_head sep b2 blocks2 hb2ne] at hd
        cases b2 with
        | nil => exact absurd rfl hb2ne
        | cons e b3 =>
          simp only [List.head?_cons, Option.some.injEq] at hd
          rw [← hd, Bool.not_not]
          exact hb2all e (by simp)
      have hsep2 : ∀ c ∈ [sep], p c = !k := by
        intro c hc
        simp only [List.mem_singleton] at hc
        rw [hc]
        exact hsep
      rw [show (sep :: sepConcat sep (b2 :: blocks2)) =
            [sep] ++ sepConcat sep (b2 :: blocks2) from rfl,
          runsBy_block p (!k) [sep] _ (by simp) hsep2 hrest2,
          ih (fun b3 hb3 => h b3 (List.mem_cons_of_mem b hb3))]
      rfl

theorem runsBy_sound (p : Char → Bool) :
    ∀ (cs : List Char) (r : Bool × List Char), r ∈ runsBy p cs →
      r.2 ≠ [] ∧ ∀ c ∈ r.2, p c = r.1 := by
  intro cs
  induction cs with
  | nil => intro r hr; simp [runsBy] at hr
  | cons c cs ih =>
    intro r hr
    rw [runsBy_cons] at hr
    cases hrr : runsBy p cs with
    | nil =>
      rw [hrr] at hr
      simp only [List.mem_singleton] at hr
      subst hr
      refine ⟨by simp, ?_⟩
      intro c2 hc2
      simp only [List.mem_singleton] at hc2
      rw [hc2]
    | cons br tailr =>
      obtain ⟨k, run⟩ := br
      rw [hrr] at hr
      by_cases hb : p c = k
      · simp only [if_pos hb] at hr
        rcases List.mem_cons.mp hr with rfl | hr2
        · have hrun := ih (k, run) (by rw [hrr]; exact List.mem_cons_self _ _)
          refine ⟨by simp, ?_⟩
          intro c2 hc2
          rcases List.mem_cons.mp hc2 with rfl | hc3
          · exact hb
          · exact hrun.2 c2 hc3
        · exact ih r (by rw [hrr]; exact List.mem_cons_of_mem _ hr2)
      · simp only [if_neg hb] at hr
        rcases List.mem_cons.mp hr with rfl | hr2
        · refine ⟨by simp, ?_⟩
          intro c2 hc2
          simp only [List.mem_singleton] at hc2
          rw [hc2]
        · exact ih r (by rw [hrr]; exact hr2)

theorem digitBlockB_spec {b : List Char} (h : digitBlockB b = true) :
    b ≠ [] ∧ ∀ c ∈ b, isDig c = true := by
  unfold digitBlockB at h
  rw [Bool.and_eq_true] at h
  constructor
  · intro he
    rw [he] at h
    simp at h
  · intro c hc
    exact (List.all_eq_true.mp h.2) c hc

theorem map_tokOfRun_runsOfSep :
    ∀ blocks : List (List Char),
      (runsOfSep true '.' blocks).map tokOfRun = toksOfBlocks blocks
  | [] => rfl
  | [_] => rfl
  | _ :: b2 :: rest => by
    show VTok.int _ :: VTok.str ['.'] :: (runsOfSep true '.' (b2 :: rest)).map tokOfRun = _
    rw [map_tokOfRun_runsOfSep (b2 :: rest)]
    rfl

theorem parse_version_dotted :
    ∀ blocks, (∀ b ∈ blocks, digitBlockB b = true) →
      parse_version (String.mk (sepConcat '.' blocks)) = toksOfBlocks blocks := by
  intro blocks h
  unfold parse_version
  rw [show (String.mk (sepConcat '.' blocks)).data = sepConcat '.' blocks from rfl]
  rw [runsBy_sepConcat isDig true '.' (by rfl) blocks
      (fun b hb => digitBlockB_spec (h b hb))]
  exact map_tokOfRun_runsOfSep blocks

theorem cmpToks_blocks :
    ∀ (A B : List (List Char)),
      cmpToks (toksOfBlocks A) (toksOfBlocks B) =
        some (natsLex (A.map strToNat) (B.map strToNat)) := by
  intro A
  induction A with
  | nil =>
    intro B
    cases B with
    | nil => rfl
    | cons b B => cases B <;> rfl
  | cons a A ih =>
    intro B
    cases B with
    | nil => cases A <;> rfl
    | cons b B =>
      cases A with
      | nil =>
        cases B with
        | nil =>
          show cmpToks [VTok.int (strToNat a)] [VTok.int (strToNat b)] = _
          simp only [cmpToks, cmpTok, List.map_cons, List.map_nil, natsLex]
          cases h : cmpN (strToNat a) (strToNat b) <;> simp
        | cons b2 B2 =>
          show cmpToks [VTok.int (strToNat a)]
              (VTok.int (strToNat b) :: VTok.str ['.'] :: toksOfBlocks (b2 :: B2)) = _
          simp only [cmpToks, cmpTok, List.map_cons, List.map_nil, natsLex]
          cases h : cmpN (strToNat a) (strToNat b) <;> simp
      | cons a2 A2 =>
        cases B with
        | nil =>
          show cmpToks (VTok.int (strToNat a) :: VTok.str ['.'] :: toksOfBlocks (a2 :: A2))
              [VTok.int (strToNat b)] = _
          simp only [cmpToks, cmpTok, List.map_cons, List.map_nil, natsLex]
          cases h : cmpN (strToNat a) (strToNat b) <;> simp
        | cons b2 B2 =>
          show cmpToks (VTok.int (strToNat a) :: VTok.str ['.'] :: toksOfBlocks (a2 :: A2))
              (VTok.int (strToNat b) :: VTok.str ['.'] :: toksOfBlocks (b2 :: B2)) = _
          simp only [cmpToks, cmpTok, List.map_cons, natsLex]
          cases h : cmpN (strToNat a) (strToNat b) with
          | lt => simp
          | gt => simp
          | eq =>
            have hdot : cmpCharList ['.'] ['.'] = Ordering.eq := rfl
            simp only [hdot]
            exact ih (b2 :: B2)

theorem filterMap_runsOfSep :
    ∀ blocks : List (List Char),
      (runsOfSep false ' ' blocks).filterMap
        (fun r => if r.1 then none else some (String.mk r.2)) =
        blocks.map String.mk
  | [] => rfl
  | [_] => rfl
  | _ :: b2 :: rest => by
    show String.mk _ :: (runsOfSep false ' ' (b2 :: rest)).filterMap _ = _
    rw [filterMap_runsOfSep (b2 :: rest)]
    rfl

theorem pySplit_joinSp :
    ∀ ws : List String, (∀ w ∈ ws, w.data ≠ [] ∧ ∀ c ∈ w.data, isWs c = false) →
      pySplit (joinSp ws) = ws := by
  intro ws h
  unfold pySplit joinSp
  rw [show (String.mk (sepConcat ' ' (ws.map String.data))).data =
        sepConcat ' ' (ws.map String.data) from rfl]
  rw [runsBy_sepConcat isWs false ' ' (by rfl) (ws.map String.data) ?hblocks]
  case hblocks =>
    intro b hb
    rw [List.mem_map] at hb
    obtain ⟨w, hw, hwb⟩ := hb
    rw [← hwb]
    exact h w hw
  rw [filterMap_runsOfSep, List.map_map]
  show ws.map (fun w => String.mk w.data) = ws
  have hid : (fun w : String => String.mk w.data) = fun w : String => w := rfl
  rw [hid, List.map_id']

theorem pySplit_words (s : String) :
    ∀ w ∈ pySplit s, w.data ≠ [] ∧ ∀ c ∈ w.data, isWs c = false := by
  intro w hw
  unfold pySplit at hw
  rw [List.mem_filterMap] at hw
  obtain ⟨r, hr, hcond⟩ := hw
  obtain ⟨hne, hall⟩ := runsBy_sound isWs s.data r hr
  cases h1 : r.1 with
  | true => rw [h1] at hcond; simp at hcond
  | false =>
    rw [h1] at hcond
    have hw2 : String.mk r.2 = w := by simpa using hcond
    have hwdata : w.data = r.2 := by rw [← hw2]
    constructor
    · rw [hwdata]; exact hne
    · intro c hc
      rw [hwdata] at hc
      rw [hall c hc, h1]

/-- C5: for dotted numeric version strings, the numeric component order
matches the parse_version token order: whenever the component sequence of
the first string is lexicographically greater (numeric comparison, shorter
prefix smaller), the parsed token list compares strictly greater under the
Version Key ordering; in particular 3.10 parses above 3.9 and below
3.11. -/
theorem c5_version_order :
    (∀ (A B : List (List Char)),
        (∀ b ∈ A, digitBlockB b = true) → (∀ b ∈ B, digitBlockB b = true) →
        natsLex (A.map strToNat) (B.map strToNat) = Ordering.gt →
        cmpToks (parse_version (String.mk (sepConcat '.' A)))
          (parse_version (String.mk (sepConcat '.' B))) = some Ordering.gt) ∧
    cmpToks (parse_version "3.10") (parse_version "3.9") = some Ordering.gt ∧
    cmpToks (parse_version "3.10") (parse_version "3.11") = some Ordering.lt := by
  refine ⟨?_, by rfl, by rfl⟩
  intro A B hA hB h
  rw [parse_version_dotted A hA, parse_version_dotted B hB, cmpToks_blocks, h]

/-- Witness for C5: the ordering statement applied to the component lists
of 3.10 and 3.9. -/
theorem c5_version_order_witness :
    cmpToks (parse_version (String.mk (sepConcat '.' [['3'], ['1', '0']])))
      (parse_version (String.mk (sepConcat '.' [['3'], ['9']]))) =
      some Ordering.gt :=
  c5_version_order.1 [['3'], ['1', '0']] [['3'], ['9']]
    (by decide) (by decide) (by decide)

/-- C7 counterexample: MAX_LLM_RESPONSE_WORDS is 40, but for a 41 word
backend response the sassy-comment responder delivers a final increment
equal to the whole 41 word response, and the single-chatter variant does
the same: no variant caps the delivered content at 40 words, because
limit_llm_response is never applied on any delivery path. -/
theorem c7_uncapped_counterexample :
    MAX_LLM_RESPONSE_WORDS = 40 ∧
    (pySplit (joinSp (List.replicate 41 "w"))).length = 41 ∧
    (deliveriesTo "u1"
      (sentOf (generate_and_stream_ai_response
        ⟨200, "", joinSp (List.replicate 41 "w")⟩
        (fun _ => ["u1"])))).getLast? = some (joinSp (List.replicate 41 "w")) ∧
    (quick_message ⟨200, "", joinSp (List.replicate 41 "w")⟩).getLast? =
      some (joinSp (List.replicate 41 "w")) := by
  exact ⟨rfl, by rfl, by rfl, by rfl⟩

/-- C7 (amended): limit_llm_response does bound its output by the
MAX_LLM_RESPONSE_WORDS constant of 40 words, but no responder variant
invokes it: the variant used for the auxiliary sassy comments delivers
the unshortened prefix joins of the full response, whatever its word
count, and the main chat path likewise has no cap. -/
theorem c7_word_cap :
    (∀ s : String,
        (pySplit (limit_llm_response s)).length ≤ MAX_LLM_RESPONSE_WORDS) ∧
    (∀ (text junk u : String),
        deliveriesTo u
          (sentOf (generate_and_stream_ai_response ⟨200, junk, text⟩
            (fun _ => [u]))) = partialsList text) := by
  constructor
  · intro s
    unfold limit_llm_response
    rw [pySplit_joinSp ((pySplit s).take MAX_LLM_RESPONSE_WORDS)
        (fun w hw => pySplit_words s w (List.mem_of_mem_take hw))]
    rw [List.length_take]
    exact min_le_left _ _
  · intro text junk u
    rw [gen_stream_deliveries]
    have hr : chat_with_ollama ⟨200, junk, text⟩ = text := rfl
    rw [hr]
    have hone : countEq u [u] = 1 := by simp [countEq]
    simp only [hone, List.replicate_one]
    rw [flatMap_one]
    rfl

/-- Witness for C7: the cap bound of limit_llm_response evaluated on the
41 word response. -/
theorem c7_word_cap_witness :
    (pySplit (limit_llm_response (joinSp (List.replicate 41 "w")))).length ≤
      MAX_LLM_RESPONSE_WORDS :=
  c7_word_cap.1 (joinSp (List.replicate 41 "w"))
